import Mathlib

/-!
Verification of the geo-ruler repository: a Cheap-Ruler geodesic
approximation library (scalar `Ruler` in `src/lib.rs`, polynomial `atan2`
approximations in `src/math.rs`, and a lane-parallel polyline-length kernel
in `simd/src/lib.rs`).

The embedding works at two levels:

* exact-real level (`ℝ`): the scalar ruler operations (`coefs`, `distance`,
  `bearing`) and the SIMD kernel's per-lane arithmetic, with `Real.cos`,
  `Real.sqrt`, `Real.arctan` standing for the exact platform functions;
* extended-value level (`EF α`): a value type with `nan`, `+∞`, `-∞` and
  finite values, with IEEE-754 semantics for the operations the code
  performs on them (division by zero, NaN propagation, comparisons that are
  false on NaN).  This level is used where the code's behaviour hinges on
  non-finite floats: the polynomial `atan2` at `(0,0)` and the
  `points_along_line` iterator whose `step = max_distance / distance` can be
  `∞` or NaN.
-/

/-- Extended floating-point values over an exact carrier `α`: `nan`,
positive/negative infinity, or a finite value.  Signed zero is not
distinguished (IEEE `+0.0 == -0.0`, and none of the verified code branches
on the sign of zero). -/
inductive EF (α : Type) where
  | nan : EF α
  | pinf : EF α
  | ninf : EF α
  | fin : α → EF α
deriving DecidableEq

namespace EF

variable {α : Type} [LinearOrderedField α]

/-- IEEE negation. -/
def neg : EF α → EF α
  | nan => nan
  | pinf => ninf
  | ninf => pinf
  | fin x => fin (-x)

/-- IEEE absolute value (the sign test is spelled out so that the
definition evaluates by kernel reduction on `ℚ`). -/
def abs : EF α → EF α
  | nan => nan
  | pinf => pinf
  | ninf => pinf
  | fin x => fin (if x < 0 then -x else x)

/-- IEEE addition: NaN propagates, `+∞ + -∞ = NaN`. -/
def add : EF α → EF α → EF α
  | nan, _ => nan
  | _, nan => nan
  | pinf, ninf => nan
  | ninf, pinf => nan
  | pinf, _ => pinf
  | _, pinf => pinf
  | ninf, _ => ninf
  | _, ninf => ninf
  | fin x, fin y => fin (x + y)

/-- IEEE subtraction, as addition of the negation. -/
def sub (a b : EF α) : EF α := a.add b.neg

/-- IEEE multiplication: NaN propagates, `0 · ∞ = NaN`. -/
def mul : EF α → EF α → EF α
  | nan, _ => nan
  | _, nan => nan
  | pinf, pinf => pinf
  | pinf, ninf => ninf
  | ninf, pinf => ninf
  | ninf, ninf => pinf
  | pinf, fin x => if x = 0 then nan else if 0 < x then pinf else ninf
  | fin x, pinf => if x = 0 then nan else if 0 < x then pinf else ninf
  | ninf, fin x => if x = 0 then nan else if 0 < x then ninf else pinf
  | fin x, ninf => if x = 0 then nan else if 0 < x then ninf else pinf
  | fin x, fin y => fin (x * y)

/-- IEEE division: NaN propagates, `x / 0` is `±∞` for `x ≠ 0` and NaN for
`x = 0`, `∞ / ∞ = NaN`, finite over infinite is zero. -/
def div : EF α → EF α → EF α
  | nan, _ => nan
  | _, nan => nan
  | pinf, pinf => nan
  | pinf, ninf => nan
  | ninf, pinf => nan
  | ninf, ninf => nan
  | pinf, fin y => if 0 ≤ y then pinf else ninf
  | ninf, fin y => if 0 ≤ y then ninf else pinf
  | fin _, pinf => fin 0
  | fin _, ninf => fin 0
  | fin x, fin y =>
      if y = 0 then (if x = 0 then nan else if 0 < x then pinf else ninf)
      else fin (x / y)

/-- IEEE strict comparison: any comparison with NaN is false. -/
def lt : EF α → EF α → Bool
  | nan, _ => false
  | _, nan => false
  | ninf, ninf => false
  | ninf, _ => true
  | _, ninf => false
  | pinf, _ => false
  | fin _, pinf => true
  | fin x, fin y => decide (x < y)

/-- A value is finite when it is neither NaN nor an infinity. -/
def isFinite : EF α → Bool
  | fin _ => true
  | _ => false

end EF

/-!
Polynomial `atan2` approximations from `src/math.rs`.  Both functions are
generic over the Rust float type `F`; the constants obtained from `F`
(`FRAC_PI_4`, `FRAC_PI_2`, `PI`) are taken as parameters of the embedding,
while the polynomial coefficients are the exact decimal literals of the
source.  The arithmetic is the `EF` IEEE model so that behaviour at the
singular input `(0, 0)` — where `(x - |y|) / (x + |y|)` is `0 / 0` — can be
captured.
-/

/-- The 3rd-degree `atan2` approximation (`src/math.rs`, feature
`atan2_deg3`): quadrant split on the sign of `x`, then
`res = a + (a3·r·r - a1)·r`, negated when `y < 0`.  `pi4` stands for the
platform constant `F::FRAC_PI_4()`. -/
def atan2Deg3 (pi4 : ℚ) (y x : EF ℚ) : EF ℚ :=
  let a1 : EF ℚ := EF.fin (9817 / 10000)
  let a3 : EF ℚ := EF.fin (1963 / 10000)
  let absY := y.abs
  let r :=
    if (x.lt (EF.fin 0)) then (x.add absY).div (absY.sub x)
    else (x.sub absY).div (x.add absY)
  let a :=
    if (x.lt (EF.fin 0)) then EF.fin (pi4 + pi4 + pi4)
    else EF.fin pi4
  let res := a.add ((((a3.mul r).mul r).sub a1).mul r)
  if (y.lt (EF.fin 0)) then res.neg else res

/-- The 5th-degree raw arctangent polynomial (`raw_atan_5` in
`src/math.rs`): `x · (a1 + x²·(a3 + x²·a5))` by Horner's method. -/
def rawAtan5 (x : EF ℚ) : EF ℚ :=
  let a1 : EF ℚ := EF.fin (995354 / 1000000)
  let a3 : EF ℚ := EF.fin (-(288679 / 1000000))
  let a5 : EF ℚ := EF.fin (79331 / 1000000)
  let xSq := x.mul x
  x.mul (a1.add (xSq.mul (a3.add (xSq.mul a5))))

/-- The 5th-degree `atan2` approximation (`src/math.rs`, feature
`atan2_deg5`): operand swap when `|x| < |y|` with reflection through `π/2`,
reflection through `π` when `x < 0`, negation when `y < 0`.  `pi2` and `piv`
stand for `F::FRAC_PI_2()` and `F::PI()`. -/
def atan2Deg5 (pi2 piv : ℚ) (y x : EF ℚ) : EF ℚ :=
  let absY := y.abs
  let absX := x.abs
  let res :=
    if (absX.lt absY) then (EF.fin pi2).sub (rawAtan5 (absX.div absY))
    else rawAtan5 (absY.div absX)
  let res2 := if (x.lt (EF.fin 0)) then (EF.fin piv).sub res else res
  if (y.lt (EF.fin 0)) then res2.neg else res2

/-!
Scalar `Ruler` from `src/lib.rs`, embedded over exact reals.  `Real.cos`,
`Real.sqrt` and the exact `atan2` (built from `Real.arctan` with the usual
quadrant convention of Rust's `f64::atan2`) stand for the platform
functions.
-/

/-- A geographic point: `x` is longitude, `y` is latitude, both in decimal
degrees (the `geo::Point` the `Ruler` methods receive). -/
structure Pt where
  x : ℝ
  y : ℝ

/-- The `Ruler<F>` state: semi-major axis `re` (meters) and eccentricity
squared `e2`. -/
structure Ruler where
  re : ℝ
  e2 : ℝ

/-- `Ruler::WGS84`: `re = 6_378_137`, `e2 = 0.00669437999`. -/
noncomputable def Ruler.WGS84 : Ruler := ⟨6378137, 669437999 / 100000000000⟩

/-- `Ruler::new(major, minor)`: `re = major`,
`e2 = 1 - minor² / major²`. -/
noncomputable def Ruler.new (major minor : ℝ) : Ruler := ⟨major, 1 - minor ^ 2 / major ^ 2⟩

/-- Degrees to radians, as Rust's `to_radians`: `x · (π / 180)`. -/
noncomputable def toRadians (x : ℝ) : ℝ := x * (Real.pi / 180)

/-- Radians to degrees, as Rust's `to_degrees`: `x · (180 / π)`. -/
noncomputable def toDegrees (x : ℝ) : ℝ := x * (180 / Real.pi)

/-- `Ruler::coefs(lat)`: the latitude-dependent scaling pair `(kx, ky)`,
with `clat = cos(lat·π/180)`, `w = 1 / (1 - e2·(1 - clat²))`,
`k = √w · re·π/180`, `kx = k·clat`, `ky = k·w·(1 - e2)`. -/
noncomputable def Ruler.coefs (r : Ruler) (lat : ℝ) : ℝ × ℝ :=
  let clat := Real.cos (toRadians lat)
  let w := 1 / (1 - r.e2 * (1 - clat * clat))
  let k := Real.sqrt w * toRadians r.re
  (k * clat, k * w * (1 - r.e2))

/-- `Ruler::coefs_avg(origin, destination)`: coefficients at the mean of the
two latitudes. -/
noncomputable def Ruler.coefs_avg (r : Ruler) (origin destination : ℝ) : ℝ × ℝ :=
  r.coefs ((origin + destination) / (1 + 1))

/-- `Ruler::distance(origin, destination)`: coefficients at the mean
latitude, then the Euclidean norm of the scaled deltas
`dx = d.x·kx - o.x·kx`, `dy = d.y·ky - o.y·ky`. -/
noncomputable def Ruler.distance (r : Ruler) (o d : Pt) : ℝ :=
  let c := r.coefs_avg o.y d.y
  let dx := d.x * c.1 - o.x * c.1
  let dy := d.y * c.2 - o.y * c.2
  Real.sqrt (dx ^ 2 + dy ^ 2)

/-- The exact platform `atan2` (Rust `f64::atan2` on finite inputs):
`arctan (y/x)` corrected by quadrant, `±π/2` on the vertical axis, `0` at
the origin. -/
noncomputable def atan2 (y x : ℝ) : ℝ :=
  if 0 < x then Real.arctan (y / x)
  else if x < 0 then
    (if 0 ≤ y then Real.arctan (y / x) + Real.pi
     else Real.arctan (y / x) - Real.pi)
  else if 0 < y then Real.pi / 2
  else if y < 0 then -(Real.pi / 2)
  else 0

/-- `Ruler::bearing(origin, destination)` (default feature set): mean
latitude coefficients, `dx = (d.x - o.x)·kx`, `dy = (d.y - o.y)·ky`, then
`atan2(dx, dy)` converted to degrees. -/
noncomputable def Ruler.bearing (r : Ruler) (o d : Pt) : ℝ :=
  let c := r.coefs_avg o.y d.y
  let dx := (d.x - o.x) * c.1
  let dy := (d.y - o.y) * c.2
  toDegrees (atan2 dx dy)

/-!
The SIMD polyline-length kernel from `simd/src/lib.rs`, embedded over lists
of exact reals.  Lane-parallel `Simd<f32, N>` operations are elementwise,
so a batch is a list of `N` lane values and the vector ops act pointwise.
The unsafe aarch64 bulk `read` is modelled by `readChunk`, which fails
(models the out-of-bounds read, i.e. undefined behaviour) unless all `N`
elements are inside the slice; the bounds-checked `load_or_default` is
`loadChunk`, which zero-pads.
-/

namespace Simd

/-- `RE`: the constant `6_378_137f32.to_radians()`. -/
noncomputable def RE : ℝ := 6378137 * (Real.pi / 180)

/-- `E2`: the constant `0.006_694_38`. -/
noncomputable def E2 : ℝ := 669438 / 100000000

/-- The kernel's polynomial cosine (`cos` in `simd/src/lib.rs`), per lane:
periodicity reduction (`+2π` when negative), reduction past `π` by
subtracting `π`, reflection past `π/2`, then the even 4th-degree polynomial
by Horner.  The sign tracking reproduces the source exactly: the first
`select` assigns `1` on the lanes with `x > π` and `-1` on the others. -/
noncomputable def cos (x : ℝ) : ℝ :=
  let x1 := if x < 0 then x + 2 * Real.pi else x
  let x2 := if Real.pi < x1 then x1 - Real.pi else x1
  let sign1 : ℝ := if Real.pi < x1 then 1 else -1
  let x3 := if Real.pi / 2 < x2 then Real.pi - x2 else x2
  let sign2 := if Real.pi / 2 < x2 then -sign1 else sign1
  sign2 * (1 + (x3 * x3) * (-(4999999 / 10000000) + (x3 * x3) * (4166368 / 100000000)))

/-- Lane-wise `coefs(lat)` of the kernel: like the scalar version but with
the polynomial cosine and the `f32` constants `RE`, `E2`. -/
noncomputable def coefs (lat : ℝ) : ℝ × ℝ :=
  let c := Simd.cos (toRadians lat)
  let w := 1 / (1 - E2 * (1 - c * c))
  let k := Real.sqrt w * RE
  (k * c, k * w * (1 - E2))

/-- Lane-wise `distance(origin, destination)` of the kernel: coefficients
at the origin latitude, scaled deltas, Euclidean norm. -/
noncomputable def distance (olon olat dlon dlat : ℝ) : ℝ :=
  let c := coefs olat
  let dx := (dlon - olon) * c.1
  let dy := (dlat - olat) * c.2
  Real.sqrt (dx * dx + dy * dy)

/-- `Simd::load_or_default(&s[offset..])`: `N` lanes, zero-padded past the
end of the slice (`List.getD` supplies the `0` default). -/
def loadChunk (s : List ℝ) (offset n : ℕ) : List ℝ :=
  (List.range n).map fun j => s.getD (offset + j) 0

/-- The unsafe aarch64 bulk read of `N` contiguous lanes at `offset`: only
defined when the whole chunk lies inside the slice; `none` models the
out-of-bounds read. -/
def readChunk (s : List ℝ) (offset n : ℕ) : Option (List ℝ) :=
  if offset + n ≤ s.length then some (loadChunk s offset n) else none

/-- Lane-wise application of `distance` to four loaded chunks. -/
noncomputable def lanesDist (olon olat dlon dlat : List ℝ) (n : ℕ) : List ℝ :=
  (List.range n).map fun j =>
    distance (olon.getD j 0) (olat.getD j 0) (dlon.getD j 0) (dlat.getD j 0)

/-- One full batch at `offset`: bulk-read origins at `offset` and
destinations at `offset + 1` from both slices, lane distances, horizontal
sum.  `none` when any of the four reads is out of bounds. -/
noncomputable def batchAt (lons lats : List ℝ) (n offset : ℕ) : Option ℝ := do
  let olon ← readChunk lons offset n
  let olat ← readChunk lats offset n
  let dlon ← readChunk lons (offset + 1) n
  let dlat ← readChunk lats (offset + 1) n
  pure (lanesDist olon olat dlon dlat n).sum

/-- The masked remainder batch: zero-padded loads at `base`, lane
distances, then the mask `(1 << r) - 1` selects the first `r` lanes and
forces the rest to `0` before the horizontal sum. -/
noncomputable def remainderSum (lons lats : List ℝ) (n base r : ℕ) : ℝ :=
  let d := lanesDist (loadChunk lons base n) (loadChunk lats base n)
    (loadChunk lons (base + 1) n) (loadChunk lats (base + 1) n) n
  ((List.range n).map fun j => if j < r then d.getD j 0 else 0).sum

/-- Failure modes of the batch kernel model: the `assert_eq!` length check
(a Rust panic, i.e. a reported error), or an out-of-bounds bulk read
(undefined behaviour in the source). -/
inductive KernelError where
  | lengthMismatch : KernelError
  | outOfBounds : KernelError
deriving DecidableEq

/-- The full-batch accumulation loop: sum `batchAt` over the given offsets,
propagating an out-of-bounds read as `none`. -/
noncomputable def batchSum (lons lats : List ℝ) (n : ℕ) : List ℕ → Option ℝ
  | [] => some 0
  | o :: rest => do
    let b ← batchAt lons lats n o
    let s ← batchSum lons lats n rest
    pure (b + s)

/-- `length::<N>(points)` from `simd/src/lib.rs`: assert equal lengths,
return `0` for fewer than 2 vertices, sum full batches for the offsets
produced by `(0..num_chunks).step_by(N)` — the multiples of `N` below
`num_chunks = (n-1)/N` — then add the masked remainder when
`(n-1) % N > 0`. -/
noncomputable def length (n : ℕ) (lons lats : List ℝ) : Except KernelError ℝ :=
  if lons.length ≠ lats.length then .error .lengthMismatch
  else if lons.length < 2 then .ok 0
  else
    let numChunks := (lons.length - 1) / n
    let offsets := (List.range numChunks).filter fun o => o % n = 0
    match batchSum lons lats n offsets with
    | none => .error .outOfBounds
    | some t =>
      let r := (lons.length - 1) % n
      if 0 < r then .ok (t + remainderSum lons lats n (numChunks * n) r)
      else .ok t

/-- The consecutive-pair lane distance at vertex index `i` of the two
coordinate slices (used to state what the kernel's sums range over). -/
noncomputable def pairDistIdx (lons lats : List ℝ) (i : ℕ) : ℝ :=
  distance (lons.getD i 0) (lats.getD i 0) (lons.getD (i + 1) 0) (lats.getD (i + 1) 0)

end Simd

/-- The scalar reference total: the sum of `Ruler::distance` over
consecutive vertex pairs of the polyline (the loop the repository's own
SIMD test uses as its reference). -/
noncomputable def polylineScalarSum (r : Ruler) (lons lats : List ℝ) : ℝ :=
  ((List.range (lons.length - 1)).map fun i =>
    r.distance ⟨lons.getD i 0, lats.getD i 0⟩ ⟨lons.getD (i + 1) 0, lats.getD (i + 1) 0⟩).sum

/-!
The `points_along_line` iterator (`LinePointInterpolator` in `src/lib.rs`),
over `EF ℝ` values: the step `max_distance / distance` is an IEEE division
that can produce `∞` (positive max over zero distance) or NaN (`0/0`), and
the loop condition `offset < 1` is an IEEE comparison that is false on NaN.
-/

/-- A point whose coordinates are extended values. -/
structure EPoint (α : Type) where
  x : EF α
  y : EF α

/-- Injection of a finite point into `EPoint`. -/
def Pt.toEP (p : Pt) : EPoint ℝ := ⟨EF.fin p.x, EF.fin p.y⟩

/-- `Ruler::point_at_ratio_between(start, end, ratio)` lifted to extended
values: `dx = (end.x - start.x)·ratio`, result `start + (dx, dy)`. -/
def point_at_ratio_between {α : Type} [LinearOrderedField α]
    (s e : EPoint α) (t : EF α) : EPoint α :=
  ⟨s.x.add ((e.x.sub s.x).mul t), s.y.add ((e.y.sub s.y).mul t)⟩

/-- The state of `LinePointInterpolator`. -/
structure LinePointInterpolator (α : Type) where
  start : EPoint α
  stop : EPoint α
  offset : EF α
  step : EF α
  include_last : Bool

namespace LinePointInterpolator

/-- One `Iterator::next` call: while `offset < 1`, yield the point at the
current ratio and advance the offset by `step`; at the end yield the stored
end point once iff `include_last` is still set. -/
def next {α : Type} [LinearOrderedField α] (st : LinePointInterpolator α) :
    Option (EPoint α × LinePointInterpolator α) :=
  if st.offset.lt (EF.fin 1) then
    some (point_at_ratio_between st.start st.stop st.offset,
      { st with offset := st.offset.add st.step })
  else if st.include_last then some (st.stop, { st with include_last := false })
  else none

/-- The first point the iterator yields, if any. -/
def firstPoint {α : Type} [LinearOrderedField α] (st : LinePointInterpolator α) :
    Option (EPoint α) :=
  (st.next).map Prod.fst

end LinePointInterpolator

/-- `Ruler::points_along_line(start, end, max_distance, include_ends)`:
compute the scalar distance, form `step = max_distance / distance` (IEEE
division), and build the interpolator whose initial offset is `0` when
`include_ends` and `step` otherwise. -/
noncomputable def Ruler.points_along_line (r : Ruler) (s e : Pt)
    (max_distance : ℝ) (include_ends : Bool) : LinePointInterpolator ℝ :=
  let step := (EF.fin max_distance).div (EF.fin (r.distance s e))
  { start := s.toEP
    stop := e.toEP
    offset := if include_ends then EF.fin 0 else step
    step := step
    include_last := include_ends }

/-- Complete runs of the iterator: `Yields st l` holds when repeatedly
calling `next` from `st` yields exactly the points of `l` and then
terminates. -/
inductive Yields {α : Type} [LinearOrderedField α] :
    LinePointInterpolator α → List (EPoint α) → Prop where
  | done (st : LinePointInterpolator α) : st.next = none → Yields st []
  | step (st : LinePointInterpolator α) (p : EPoint α)
      (st2 : LinePointInterpolator α) (l : List (EPoint α)) :
      st.next = some (p, st2) → Yields st2 l → Yields st (p :: l)

/-- The cosine range reduction exactly as the specification words it: the
sign `s` starts at `+1` and flips once at each of the two symmetry
reductions, and the reduced argument feeds the same even polynomial. -/
noncomputable def specCosReduce (x : ℝ) : ℝ :=
  let x1 := if x < 0 then x + 2 * Real.pi else x
  let x2 := if Real.pi < x1 then x1 - Real.pi else x1
  let sign1 : ℝ := if Real.pi < x1 then -1 else 1
  let x3 := if Real.pi / 2 < x2 then Real.pi - x2 else x2
  let sign2 := if Real.pi / 2 < x2 then -sign1 else sign1
  sign2 * (1 + (x3 * x3) * (-(4999999 / 10000000) + (x3 * x3) * (4166368 / 100000000)))

/-- Longitudes of the 9-vertex polyline exhibiting the skipped-batch bug:
the first five vertices coincide, the last four are 10° apart on the
equator. -/
def lonsSkip : List ℝ := [0, 0, 0, 0, 0, 10, 20, 30, 40]

/-- Latitudes of the 9-vertex polyline: all on the equator. -/
def latsSkip : List ℝ := [0, 0, 0, 0, 0, 0, 0, 0, 0]


/-!
Theorems.  First the evaluation lemmas for the `EF` operations (Mathlib's
`ℚ` and `ℝ` arithmetic does not kernel-reduce, so the claims are settled by
`simp`/`norm_num` over these equations), then the claim theorems.
-/

namespace EF

variable {α : Type} [LinearOrderedField α]

@[simp] theorem neg_fin (x : α) : (fin x).neg = fin (-x) := rfl

@[simp] theorem neg_nan : (nan : EF α).neg = nan := rfl

@[simp] theorem abs_fin (x : α) :
    (fin x).abs = fin (if x < 0 then -x else x) := rfl

@[simp] theorem add_fin_fin (x y : α) : (fin x).add (fin y) = fin (x + y) := rfl

@[simp] theorem add_nan (a : EF α) : a.add nan = nan := by cases a <;> rfl

@[simp] theorem nan_add (a : EF α) : (nan : EF α).add a = nan := by cases a <;> rfl

@[simp] theorem add_fin_pinf (x : α) : (fin x).add pinf = pinf := rfl

@[simp] theorem add_fin_ninf (x : α) : (fin x).add ninf = ninf := rfl

@[simp] theorem sub_fin_fin (x y : α) : (fin x).sub (fin y) = fin (x + -y) := rfl

@[simp] theorem mul_fin_fin (x y : α) : (fin x).mul (fin y) = fin (x * y) := rfl

@[simp] theorem mul_nan (a : EF α) : a.mul nan = nan := by cases a <;> rfl

@[simp] theorem nan_mul (a : EF α) : (nan : EF α).mul a = nan := by cases a <;> rfl

@[simp] theorem div_fin_fin (x y : α) :
    (fin x).div (fin y) =
      if y = 0 then (if x = 0 then nan else if 0 < x then pinf else ninf)
      else fin (x / y) := rfl

@[simp] theorem lt_fin_fin (x y : α) : (fin x).lt (fin y) = decide (x < y) := rfl

@[simp] theorem lt_nan_left (a : EF α) : (nan : EF α).lt a = false := by cases a <;> rfl

@[simp] theorem lt_nan_right (a : EF α) : a.lt nan = false := by cases a <;> rfl

@[simp] theorem lt_pinf_left (a : EF α) : (pinf : EF α).lt a = false := by
  cases a <;> rfl

omit [LinearOrderedField α] in
@[simp] theorem isFinite_nan : (nan : EF α).isFinite = false := rfl

omit [LinearOrderedField α] in
@[simp] theorem isFinite_fin (x : α) : (fin x).isFinite = true := rfl

end EF

/-- C6 counterexample: at the singular input `(0, 0)` both polynomial
`atan2` tiers return NaN — a non-finite value — because the range-reduction
ratio is `0 / 0`.  The π-derived constants are instantiated at the leading
decimal digits of `π/4`, `π/2` and `π`. -/
theorem atan2_origin_cex :
    (atan2Deg3 (7853981633974483 / 10000000000000000) (EF.fin 0) (EF.fin 0)).isFinite = false ∧
    (atan2Deg5 (15707963267948966 / 10000000000000000)
      (31415926535897932 / 10000000000000000) (EF.fin 0) (EF.fin 0)).isFinite = false := by
  refine ⟨?_, ?_⟩ <;> simp [atan2Deg3, atan2Deg5, rawAtan5]

/-- C6 amended: for every choice of the platform π-constants, both
polynomial `atan2` approximations return NaN (hence a non-finite value,
rather than the finite value the claim requires) at the input `(0, 0)`. -/
theorem atan2_origin_nan (pi4 pi2 piv : ℚ) :
    atan2Deg3 pi4 (EF.fin 0) (EF.fin 0) = EF.nan ∧
    atan2Deg5 pi2 piv (EF.fin 0) (EF.fin 0) = EF.nan := by
  refine ⟨?_, ?_⟩ <;> simp [atan2Deg3, atan2Deg5, rawAtan5]

/-- C10: `Ruler::distance` derives its scaling coefficients at the mean
latitude of the two points (`coefs_avg`), so the distance is exactly
symmetric in its two arguments. -/
theorem distance_symm (r : Ruler) (a b : Pt) :
    r.distance a b = r.distance b a := by
  simp only [Ruler.distance, Ruler.coefs_avg]
  rw [add_comm b.y a.y]
  congr 1
  ring

/-- Range of the exact `atan2`: always in `(-π, π]`. -/
theorem atan2_bounds (y x : ℝ) : -Real.pi < atan2 y x ∧ atan2 y x ≤ Real.pi := by
  have hpi := Real.pi_pos
  unfold atan2
  split_ifs with h1 h2 h3 h4 h5
  · exact ⟨by nlinarith [Real.neg_pi_div_two_lt_arctan (y / x)],
      by nlinarith [Real.arctan_lt_pi_div_two (y / x)]⟩
  · have hle : y / x ≤ 0 := div_nonpos_of_nonneg_of_nonpos h3 h2.le
    have ha : Real.arctan (y / x) ≤ 0 :=
      (Real.arctan_strictMono.monotone hle).trans_eq Real.arctan_zero
    have hb := Real.neg_pi_div_two_lt_arctan (y / x)
    exact ⟨by linarith, by linarith⟩
  · have hyx : 0 < y / x := div_pos_of_neg_of_neg (lt_of_not_le h3) h2
    have ha : 0 < Real.arctan (y / x) := by
      have := Real.arctan_strictMono hyx
      rwa [Real.arctan_zero] at this
    have hb := Real.arctan_lt_pi_div_two (y / x)
    exact ⟨by linarith, by linarith⟩
  · exact ⟨by linarith, by linarith⟩
  · exact ⟨by linarith, by linarith⟩
  · exact ⟨by linarith, by linarith⟩

/-- The WGS84 scaling coefficients at latitude `0`: `clat = 1`, `w = 1`,
so `kx = 6378137·π/180` and `ky = kx·(1 - e2)`. -/
theorem WGS84_coefs_avg_zero :
    Ruler.WGS84.coefs_avg 0 0 =
      (6378137 * (Real.pi / 180),
        6378137 * (Real.pi / 180) * (1 - 669437999 / 100000000000)) := by
  unfold Ruler.coefs_avg Ruler.coefs Ruler.WGS84 toRadians
  norm_num [Real.cos_zero, Real.sqrt_one]

/-- C3 counterexample: for the distinct points `(0,0)` and `(-1,0)` (due
west on the equator) the bearing is `-90`, which is not in `[0, 360)`.  The
code converts the raw `atan2` value to degrees without normalizing. -/
theorem bearing_not_normalized_cex :
    (⟨0, 0⟩ : Pt) ≠ (⟨-1, 0⟩ : Pt) ∧
    Ruler.WGS84.bearing ⟨0, 0⟩ ⟨-1, 0⟩ = -90 := by
  have hpi := Real.pi_pos
  have hK : (0 : ℝ) < 6378137 * (Real.pi / 180) := by positivity
  constructor
  · intro h
    have hx := congrArg Pt.x h
    norm_num at hx
  · have hco := WGS84_coefs_avg_zero
    simp only [Ruler.bearing]
    norm_num [hco]
    unfold atan2
    rw [if_neg (by norm_num), if_neg (by norm_num),
      if_neg (by linarith), if_pos (by linarith)]
    unfold toDegrees
    have hπ : Real.pi ≠ 0 := ne_of_gt hpi
    field_simp
    ring

/-- C3 amended: `Ruler::bearing` returns degrees in the half-open interval
`(-180, 180]` (the `atan2` range scaled to degrees); it is congruent mod
360 to the `[0, 360)` value the claim states, but is not normalized. -/
theorem bearing_range_amended (r : Ruler) (o d : Pt) :
    -180 < r.bearing o d ∧ r.bearing o d ≤ 180 := by
  have hpi := Real.pi_pos
  have hc : (0 : ℝ) < 180 / Real.pi := by positivity
  obtain ⟨h1, h2⟩ := atan2_bounds ((d.x - o.x) * (r.coefs_avg o.y d.y).1)
    ((d.y - o.y) * (r.coefs_avg o.y d.y).2)
  simp only [Ruler.bearing, toDegrees]
  have hπ : Real.pi ≠ 0 := ne_of_gt hpi
  have e2 : Real.pi * (180 / Real.pi) = 180 := by
    rw [mul_div_assoc', mul_comm, mul_div_assoc, div_self hπ, mul_one]
  have e1 : -Real.pi * (180 / Real.pi) = -180 := by
    rw [neg_mul, e2]
  constructor
  · have h3 := mul_lt_mul_of_pos_right h1 hc
    linarith
  · have h3 := mul_le_mul_of_nonneg_right h2 hc.le
    linarith

/-- C8: at `x = 0` — already in `[0, π/2]`, so no range reduction fires —
the kernel cosine returns `-1` instead of the claimed nonnegative
polynomial value `p(0) = 1`: the two arms of the sign `select` are swapped
relative to the commented-out scalar reference directly above it in the
source.  The reduction modelled from the specification's own wording
(`specCosReduce`) returns `+1` there. -/
theorem simd_cos_sign_bug : Simd.cos 0 = -1 ∧ specCosReduce 0 = 1 := by
  have hpi := Real.pi_pos
  have h1 : ¬ ((0 : ℝ) < 0) := lt_irrefl 0
  have h2 : ¬ (Real.pi < (0 : ℝ)) := by linarith
  have h3 : ¬ (Real.pi / 2 < (0 : ℝ)) := by linarith
  constructor
  · simp only [Simd.cos, h1, if_false, h2, h3]
    norm_num
  · simp only [specCosReduce, h1, if_false, h2, h3]
    norm_num

/-- Evaluation of `getD` on a mapped range. -/
theorem getD_map_range (f : ℕ → ℝ) {j n : ℕ} (h : j < n) :
    (((List.range n).map f).getD j 0) = f j := by
  rw [List.getD_eq_getElem?_getD, List.getElem?_map, List.getElem?_range h]
  rfl

/-- A zero-padded load reads the underlying slice (with `getD` default)
lane by lane. -/
theorem Simd.loadChunk_getD (s : List ℝ) (offset : ℕ) {j n : ℕ} (h : j < n) :
    ((Simd.loadChunk s offset n).getD j 0) = s.getD (offset + j) 0 :=
  getD_map_range _ h

/-- A full batch whose four bulk reads are in bounds computes the sum of
the `n` consecutive-pair distances starting at `offset`. -/
theorem Simd.batchAt_eq (lons lats : List ℝ) (n offset : ℕ)
    (h1 : offset + 1 + n ≤ lons.length) (h2 : offset + 1 + n ≤ lats.length) :
    Simd.batchAt lons lats n offset =
      some (((List.range n).map fun j => Simd.pairDistIdx lons lats (offset + j)).sum) := by
  have h1' : offset + n ≤ lons.length := by omega
  have h2' : offset + n ≤ lats.length := by omega
  unfold Simd.batchAt Simd.readChunk
  rw [if_pos h1', if_pos h2', if_pos (by omega : offset + 1 + n ≤ lons.length),
    if_pos (by omega : offset + 1 + n ≤ lats.length)]
  simp only [Option.bind_eq_bind, Option.some_bind, Option.pure_def]
  congr 1
  unfold Simd.lanesDist
  congr 1
  apply List.map_congr_left
  intro j hj
  have hjn : j < n := List.mem_range.mp hj
  rw [Simd.loadChunk_getD _ _ hjn, Simd.loadChunk_getD _ _ hjn,
    Simd.loadChunk_getD _ _ hjn, Simd.loadChunk_getD _ _ hjn]
  unfold Simd.pairDistIdx
  rw [Nat.add_right_comm offset 1 j]

/-- The batch loop sums the per-batch values when every batch read is in
bounds. -/
theorem Simd.batchSum_eq (lons lats : List ℝ) (n : ℕ) (g : ℕ → ℝ)
    (l : List ℕ) (h : ∀ o ∈ l, Simd.batchAt lons lats n o = some (g o)) :
    Simd.batchSum lons lats n l = some ((l.map g).sum) := by
  induction l with
  | nil => rfl
  | cons o rest ih =>
    have ho := h o (List.mem_cons_self o rest)
    have hrest := ih fun o' ho' => h o' (List.mem_cons_of_mem o ho')
    unfold Simd.batchSum
    rw [ho, hrest]
    rfl

/-- Truncating a masked sum over `n` lanes to its first `r` live lanes. -/
theorem sum_if_range (f : ℕ → ℝ) (r : ℕ) :
    ∀ n : ℕ, r ≤ n →
      ((List.range n).map fun j => if j < r then f j else 0).sum =
        ((List.range r).map f).sum := by
  intro n
  induction n with
  | zero =>
    intro h
    have : r = 0 := Nat.le_zero.mp h
    subst this
    rfl
  | succ m ih =>
    intro h
    rcases Nat.lt_or_ge r (m + 1) with hlt | hge
    · have hrm : r ≤ m := by omega
      rw [List.range_succ, List.map_append, List.sum_append, ih hrm]
      simp [Nat.not_lt.mpr hrm]
    · have hr : r = m + 1 := by omega
      subst hr
      congr 1
      apply List.map_congr_left
      intro j hj
      rw [if_pos (List.mem_range.mp hj)]

/-- The masked remainder batch equals the sum of the first `r` real pair
distances: the zero-padded lanes are forced to `0` by the mask and
contribute nothing. -/
theorem Simd.remainderSum_eq (lons lats : List ℝ) (n base r : ℕ) (hr : r ≤ n) :
    Simd.remainderSum lons lats n base r =
      ((List.range r).map fun j => Simd.pairDistIdx lons lats (base + j)).sum := by
  simp only [Simd.remainderSum]
  rw [← sum_if_range (fun j => Simd.pairDistIdx lons lats (base + j)) r n hr]
  congr 1
  apply List.map_congr_left
  intro j hj
  have hjn : j < n := List.mem_range.mp hj
  by_cases hjr : j < r
  · rw [if_pos hjr, if_pos hjr]
    unfold Simd.lanesDist
    rw [getD_map_range _ hjn]
    rw [Simd.loadChunk_getD _ _ hjn, Simd.loadChunk_getD _ _ hjn,
      Simd.loadChunk_getD _ _ hjn, Simd.loadChunk_getD _ _ hjn]
    unfold Simd.pairDistIdx
    rw [Nat.add_right_comm base 1 j]
  · rw [if_neg hjr, if_neg hjr]

/-- Full evaluation of the batch kernel on equal-length inputs: every bulk
read is in bounds, so the result is `ok`, its full-batch part ranges over
the offsets `(0..num_chunks).step_by(N)` actually visited by the source
loop, and the masked remainder contributes exactly the `(n-1) % N` real
trailing pairs (the zero-padded lanes contribute `0`). -/
theorem Simd.length_eq_spec (n : ℕ) (lons lats : List ℝ)
    (hn : 0 < n) (hlen : lons.length = lats.length) :
    Simd.length n lons lats = .ok (
      if lons.length < 2 then 0
      else (((List.range ((lons.length - 1) / n)).filter fun o => o % n = 0).map
            fun o => ((List.range n).map fun j => Simd.pairDistIdx lons lats (o + j)).sum).sum
        + (if 0 < (lons.length - 1) % n then
            ((List.range ((lons.length - 1) % n)).map fun j =>
              Simd.pairDistIdx lons lats ((lons.length - 1) / n * n + j)).sum
          else 0)) := by
  simp only [Simd.length]
  rw [if_neg (by simp [hlen])]
  by_cases h2 : lons.length < 2
  · rw [if_pos h2, if_pos h2]
  · rw [if_neg h2, if_neg h2]
    have hbatch : ∀ o ∈ (List.range ((lons.length - 1) / n)).filter fun o => o % n = 0,
        Simd.batchAt lons lats n o =
          some (((List.range n).map fun j => Simd.pairDistIdx lons lats (o + j)).sum) := by
      intro o ho
      have ho' : o < (lons.length - 1) / n := List.mem_range.mp (List.mem_of_mem_filter ho)
      have hdiv : (o + 1) * n ≤ lons.length - 1 :=
        (Nat.le_div_iff_mul_le hn).mp (Nat.succ_le_of_lt ho')
      have hmul : o ≤ o * n := Nat.le_mul_of_pos_right o hn
      have hon : o * n + n ≤ lons.length - 1 := by
        rw [add_mul, one_mul] at hdiv
        exact hdiv
      have hlb : o + n ≤ lons.length - 1 := le_trans (Nat.add_le_add_right hmul n) hon
      have hlen2 : 2 ≤ lons.length := Nat.le_of_not_lt h2
      apply Simd.batchAt_eq
      · omega
      · omega
    rw [Simd.batchSum_eq lons lats n _ _ hbatch]
    simp only []
    have hrn : (lons.length - 1) % n ≤ n := le_of_lt (Nat.mod_lt _ hn)
    by_cases hr : 0 < (lons.length - 1) % n
    · rw [if_pos hr, if_pos hr,
        Simd.remainderSum_eq lons lats n ((lons.length - 1) / n * n) _ hrn]
    · rw [if_neg hr, if_neg hr, add_zero]

/-- C2: for equal-length inputs and any positive lane width, the batch
kernel never performs an out-of-bounds access (the result is `ok`, not the
`outOfBounds` error that models reading past a slice), and the value it
returns is exactly the sum of real consecutive-pair distances — the
zero-padded, masked lanes of the partial batch contribute `0`. -/
theorem simd_length_inbounds_masked (n : ℕ) (lons lats : List ℝ)
    (hn : 0 < n) (hlen : lons.length = lats.length) :
    Simd.length n lons lats = .ok (
      if lons.length < 2 then 0
      else (((List.range ((lons.length - 1) / n)).filter fun o => o % n = 0).map
            fun o => ((List.range n).map fun j => Simd.pairDistIdx lons lats (o + j)).sum).sum
        + (if 0 < (lons.length - 1) % n then
            ((List.range ((lons.length - 1) % n)).map fun j =>
              Simd.pairDistIdx lons lats ((lons.length - 1) / n * n + j)).sum
          else 0)) :=
  Simd.length_eq_spec n lons lats hn hlen

/-- C2 witness: the theorem applied at lane width 4 and a concrete
5-vertex polyline (one full batch, no remainder would be wrong: `n-1 = 4`
gives one batch and no remainder). -/
theorem simd_length_inbounds_masked_witness :
    0 < 4 ∧ ([(0:ℝ), 1, 2, 3, 4].length = [(5:ℝ), 6, 7, 8, 9].length) ∧
    Simd.length 4 [(0:ℝ), 1, 2, 3, 4] [(5:ℝ), 6, 7, 8, 9] = .ok (
      if [(0:ℝ), 1, 2, 3, 4].length < 2 then 0
      else (((List.range (([(0:ℝ), 1, 2, 3, 4].length - 1) / 4)).filter
            fun o => o % 4 = 0).map
            fun o => ((List.range 4).map fun j =>
              Simd.pairDistIdx [(0:ℝ), 1, 2, 3, 4] [(5:ℝ), 6, 7, 8, 9] (o + j)).sum).sum
        + (if 0 < ([(0:ℝ), 1, 2, 3, 4].length - 1) % 4 then
            ((List.range (([(0:ℝ), 1, 2, 3, 4].length - 1) % 4)).map fun j =>
              Simd.pairDistIdx [(0:ℝ), 1, 2, 3, 4] [(5:ℝ), 6, 7, 8, 9]
                (([(0:ℝ), 1, 2, 3, 4].length - 1) / 4 * 4 + j)).sum
          else 0)) :=
  ⟨by norm_num, by simp,
    simd_length_inbounds_masked 4 [(0:ℝ), 1, 2, 3, 4] [(5:ℝ), 6, 7, 8, 9]
      (by norm_num) (by simp)⟩

/-- C7: whenever the two input slices have different lengths, the batch
kernel fails fast with the checked `lengthMismatch` error (the
`assert_eq!` panic in the source) — it neither returns a value nor reaches
any memory access. -/
theorem simd_length_mismatch_fails_fast (n : ℕ) (lons lats : List ℝ)
    (h : lons.length ≠ lats.length) :
    Simd.length n lons lats = .error .lengthMismatch := by
  unfold Simd.length
  rw [if_pos h]

/-- C7 witness: a one-element longitude slice against an empty latitude
slice. -/
theorem simd_length_mismatch_fails_fast_witness :
    ([(0:ℝ)].length ≠ ([] : List ℝ).length) ∧
    Simd.length 4 [(0:ℝ)] [] = .error .lengthMismatch :=
  ⟨by simp, simd_length_mismatch_fails_fast 4 [(0:ℝ)] [] (by simp)⟩

/-- The scalar distance from a point to itself is exactly `0`. -/
theorem Ruler.dist_self (r : Ruler) (p : Pt) : r.distance p p = 0 := by
  simp only [Ruler.distance]
  norm_num [sub_self]

/-- The kernel lane distance from a vertex to itself is exactly `0`. -/
theorem Simd.distance_self (lon lat : ℝ) : Simd.distance lon lat lon lat = 0 := by
  simp only [Simd.distance]
  norm_num [sub_self]

/-- The scalar WGS84 distance between two distinct equator points is
positive. -/
theorem WGS84_dist_equator_pos (a b : ℝ) (hab : a ≠ b) :
    0 < Ruler.WGS84.distance ⟨a, 0⟩ ⟨b, 0⟩ := by
  have hpi := Real.pi_pos
  have hK : (0 : ℝ) < 6378137 * (Real.pi / 180) := by positivity
  simp only [Ruler.distance]
  rw [WGS84_coefs_avg_zero]
  apply Real.sqrt_pos.mpr
  have hdx : b * (6378137 * (Real.pi / 180)) - a * (6378137 * (Real.pi / 180)) ≠ 0 := by
    intro h
    exact hab (mul_right_cancel₀ (ne_of_gt hK) (sub_eq_zero.mp h)).symm
  have h1 : 0 < (b * (6378137 * (Real.pi / 180)) - a * (6378137 * (Real.pi / 180))) ^ 2 :=
    pow_two_pos_of_ne_zero hdx
  nlinarith [sq_nonneg ((0 : ℝ) * (6378137 * (Real.pi / 180) * (1 - 669437999 / 100000000000))
    - 0 * (6378137 * (Real.pi / 180) * (1 - 669437999 / 100000000000)))]

/-- C1: the full-batch loop `for offset in (0..num_chunks).step_by(N)`
strides by the lane width over the *chunk count*, so on the 9-vertex
equatorial polyline `lonsSkip`/`latsSkip` (lane width 4, `num_chunks = 2`)
only the batch at offset `0` is processed — the four trailing pairs, each
about 1113 km long, are never read.  The kernel returns exactly `0` while
the scalar pairwise sum is positive, so the returned total is not within 1%
relative error of the scalar sum. -/
theorem simd_length_skips_full_batches :
    Simd.length 4 lonsSkip latsSkip = .ok 0 ∧
    0 < polylineScalarSum Ruler.WGS84 lonsSkip latsSkip ∧
    ¬ (|(0 : ℝ) - polylineScalarSum Ruler.WGS84 lonsSkip latsSkip| ≤
        (1 / 100) * |polylineScalarSum Ruler.WGS84 lonsSkip latsSkip|) := by
  have hlen : lonsSkip.length = 9 := by simp [lonsSkip]
  have hlen' : latsSkip.length = 9 := by simp [latsSkip]
  have hS : 0 < polylineScalarSum Ruler.WGS84 lonsSkip latsSkip := by
    unfold polylineScalarSum
    rw [hlen]
    rw [(by norm_num : (9 : ℕ) - 1 = 8)]
    rw [(by decide : List.range 8 = [0, 1, 2, 3, 4, 5, 6, 7])]
    simp only [List.map_cons, List.map_nil, List.sum_cons, List.sum_nil]
    norm_num [lonsSkip, latsSkip, Ruler.dist_self]
    have p1 := WGS84_dist_equator_pos 0 10 (by norm_num)
    have p2 := WGS84_dist_equator_pos 10 20 (by norm_num)
    have p3 := WGS84_dist_equator_pos 20 30 (by norm_num)
    have p4 := WGS84_dist_equator_pos 30 40 (by norm_num)
    linarith
  refine ⟨?_, hS, ?_⟩
  · rw [Simd.length_eq_spec 4 lonsSkip latsSkip (by norm_num) (by rw [hlen, hlen'])]
    rw [hlen]
    rw [(by norm_num : (9 : ℕ) - 1 = 8)]
    rw [(by norm_num : (8 : ℕ) / 4 = 2), (by norm_num : (8 : ℕ) % 4 = 0)]
    rw [(by decide : (List.range 2).filter (fun o => decide (o % 4 = 0)) = [0])]
    rw [(by decide : List.range 4 = [0, 1, 2, 3])]
    simp only [List.map_cons, List.map_nil, List.sum_cons, List.sum_nil]
    norm_num [Simd.pairDistIdx, lonsSkip, latsSkip, Simd.distance_self]
  · rw [zero_sub, abs_neg, abs_of_pos hS]
    intro hle
    linarith

/-- Interpolating at ratio `0` returns exactly the start point. -/
theorem parb_zero (s e : Pt) :
    point_at_ratio_between s.toEP e.toEP (EF.fin 0) = s.toEP := by
  simp [point_at_ratio_between, Pt.toEP]

/-- Division of finite values with a nonzero divisor is exact. -/
theorem EF.div_fin_of_ne {x y : ℝ} (hy : y ≠ 0) :
    (EF.fin x).div (EF.fin y) = EF.fin (x / y) := by
  simp [EF.div, hy]

/-- IEEE `x / 0 = +∞` for positive finite `x`. -/
theorem EF.div_fin_zero_pos {x : ℝ} (hx : 0 < x) :
    (EF.fin x).div (EF.fin 0) = EF.pinf := by
  simp [EF.div, ne_of_gt hx, hx]

/-- IEEE `0 / 0 = NaN`. -/
theorem EF.div_zero_zero : (EF.fin (0 : ℝ)).div (EF.fin 0) = EF.nan := by
  simp [EF.div]

/-- On a degenerate segment (`distance = 0`) with nonnegative
`max_distance`, the iterator's step is `+∞` or NaN, so the `offset < 1`
loop runs at most once: the complete output is `[start, end]` when
`include_ends` and empty otherwise. -/
theorem yields_degenerate (r : Ruler) (s e : Pt) (maxd : ℝ) (b : Bool)
    (hd : r.distance s e = 0) (hm : 0 ≤ maxd) :
    Yields (r.points_along_line s e maxd b) (if b then [s.toEP, e.toEP] else []) := by
  have hstep : (EF.fin maxd).div (EF.fin (r.distance s e)) = EF.pinf ∨
      (EF.fin maxd).div (EF.fin (r.distance s e)) = EF.nan := by
    rw [hd]
    rcases eq_or_lt_of_le hm with h0 | hpos
    · right
      rw [← h0]
      exact EF.div_zero_zero
    · left
      exact EF.div_fin_zero_pos hpos
  unfold Ruler.points_along_line
  rcases hstep with hstep | hstep <;> rw [hstep] <;> cases b
  · exact Yields.done _ (by simp [LinePointInterpolator.next])
  · refine Yields.step _ s.toEP ⟨s.toEP, e.toEP, EF.pinf, EF.pinf, true⟩ _ ?_ ?_
    · simp [LinePointInterpolator.next, parb_zero]
    · refine Yields.step _ e.toEP ⟨s.toEP, e.toEP, EF.pinf, EF.pinf, false⟩ _ ?_ ?_
      · simp [LinePointInterpolator.next]
      · exact Yields.done _ (by simp [LinePointInterpolator.next])
  · exact Yields.done _ (by simp [LinePointInterpolator.next])
  · refine Yields.step _ s.toEP ⟨s.toEP, e.toEP, EF.nan, EF.nan, true⟩ _ ?_ ?_
    · simp [LinePointInterpolator.next, parb_zero]
    · refine Yields.step _ e.toEP ⟨s.toEP, e.toEP, EF.nan, EF.nan, false⟩ _ ?_ ?_
      · simp [LinePointInterpolator.next]
      · exact Yields.done _ (by simp [LinePointInterpolator.next])

/-- C4 counterexample: for the degenerate input `start = end = (0,0)` with
`max_distance = 1` and `include_ends = true`, the iterator yields a
complete run of exactly two points (`start`, then `end`), not the empty or
one-point sequence the claim allows. -/
theorem points_along_line_degenerate_cex :
    Ruler.WGS84.distance ⟨0, 0⟩ ⟨0, 0⟩ = 0 ∧
    Yields (Ruler.WGS84.points_along_line ⟨0, 0⟩ ⟨0, 0⟩ 1 true)
      [(Pt.mk 0 0).toEP, (Pt.mk 0 0).toEP] ∧
    [(Pt.mk 0 0).toEP, (Pt.mk 0 0).toEP].length = 2 := by
  refine ⟨Ruler.dist_self _ _, ?_, rfl⟩
  simpa using
    yields_degenerate Ruler.WGS84 ⟨0, 0⟩ ⟨0, 0⟩ 1 true (Ruler.dist_self _ _) (by norm_num)

/-- C4 amended: for degenerate segments (`distance = 0`) with finite
coordinates and `max_distance ≥ 0`, `points_along_line` yields exactly the
two finite points `[start, end]` when `include_ends` is set, and the empty
sequence otherwise; every yielded coordinate is finite.  (For negative
`max_distance` the step is `-∞` and the source loop yields NaN points
forever, which is why the amendment restricts to `max_distance ≥ 0`.) -/
theorem points_along_line_degenerate_amended (r : Ruler) (s e : Pt) (maxd : ℝ)
    (b : Bool) (hd : r.distance s e = 0) (hm : 0 ≤ maxd) :
    Yields (r.points_along_line s e maxd b) (if b then [s.toEP, e.toEP] else []) ∧
    ∀ p ∈ (if b then [s.toEP, e.toEP] else ([] : List (EPoint ℝ))),
      p.x.isFinite = true ∧ p.y.isFinite = true := by
  refine ⟨yields_degenerate r s e maxd b hd hm, ?_⟩
  intro p hp
  cases b
  · simp at hp
  · simp only [if_true] at hp
    rcases List.mem_cons.mp hp with rfl | hp'
    · simp [Pt.toEP]
    · rcases List.mem_cons.mp hp' with rfl | hp''
      · simp [Pt.toEP]
      · simp at hp''

/-- C4 witness: the amended theorem at `start = end = (0,0)`,
`max_distance = 1`, `include_ends = true`. -/
theorem points_along_line_degenerate_amended_witness :
    Ruler.WGS84.distance ⟨0, 0⟩ ⟨0, 0⟩ = 0 ∧ ((0 : ℝ) ≤ 1) ∧
    (Yields (Ruler.WGS84.points_along_line ⟨0, 0⟩ ⟨0, 0⟩ 1 true)
      (if true then [(Pt.mk 0 0).toEP, (Pt.mk 0 0).toEP] else []) ∧
    ∀ p ∈ (if true then [(Pt.mk 0 0).toEP, (Pt.mk 0 0).toEP] else ([] : List (EPoint ℝ))),
      p.x.isFinite = true ∧ p.y.isFinite = true) :=
  ⟨Ruler.dist_self _ _, by norm_num,
    points_along_line_degenerate_amended Ruler.WGS84 ⟨0, 0⟩ ⟨0, 0⟩ 1 true
      (Ruler.dist_self _ _) (by norm_num)⟩

/-- Once the offset is at least `1`, the iterator yields only the optional
end point and terminates. -/
theorem yields_stop (S E : EPoint ℝ) (q t : ℝ) (b : Bool) (h : ¬ t < 1) :
    Yields (⟨S, E, EF.fin t, EF.fin q, b⟩ : LinePointInterpolator ℝ)
      (if b then [E] else []) := by
  cases b
  · exact Yields.done _ (by simp [LinePointInterpolator.next, h])
  · refine Yields.step _ E ⟨S, E, EF.fin t, EF.fin q, false⟩ [] ?_
      (Yields.done _ (by simp [LinePointInterpolator.next, h]))
    simp [LinePointInterpolator.next, h]

/-- With finite offset and finite positive step, the iterator terminates:
the complete run consists of interpolated points at ratios in `[t, 1)`
(the first one exactly at `t` when `t < 1`), followed by the end point iff
`include_last` is set. -/
theorem yields_fin_run (S E : EPoint ℝ) (q : ℝ) (hq : 0 < q) (b : Bool) :
    ∀ N : ℕ, ∀ t : ℝ, (1 - t) / q ≤ N →
      ∃ mids : List (EPoint ℝ),
        Yields (⟨S, E, EF.fin t, EF.fin q, b⟩ : LinePointInterpolator ℝ)
          (mids ++ if b then [E] else []) ∧
        mids.head? = (if t < 1 then some (point_at_ratio_between S E (EF.fin t)) else none) ∧
        ∀ p ∈ mids, ∃ u : ℝ, t ≤ u ∧ u < 1 ∧ p = point_at_ratio_between S E (EF.fin u) := by
  intro N
  induction N with
  | zero =>
    intro t ht
    have ht1 : ¬ t < 1 := by
      intro hlt
      have hpos : 0 < (1 - t) / q := div_pos (by linarith) hq
      simp only [Nat.cast_zero] at ht
      linarith
    refine ⟨[], ?_, by rw [if_neg ht1]; rfl, by intro p hp; simp at hp⟩
    simpa using yields_stop S E q t b ht1
  | succ m ih =>
    intro t ht
    by_cases htlt : t < 1
    · have hmeas : (1 - (t + q)) / q ≤ m := by
        have heq : (1 - (t + q)) / q = (1 - t) / q - 1 := by
          field_simp
          ring
        push_cast at ht ⊢
        rw [heq]
        linarith
      obtain ⟨mids, hy, hhead, hmem⟩ := ih (t + q) hmeas
      refine ⟨point_at_ratio_between S E (EF.fin t) :: mids, ?_, by rw [if_pos htlt]; rfl, ?_⟩
      · refine Yields.step _ _ ⟨S, E, EF.fin (t + q), EF.fin q, b⟩ _ ?_ hy
        simp [LinePointInterpolator.next, htlt]
      · intro p hp
        rcases List.mem_cons.mp hp with rfl | hp'
        · exact ⟨t, le_refl t, htlt, rfl⟩
        · obtain ⟨u, hu1, hu2, hu3⟩ := hmem p hp'
          exact ⟨u, by linarith, hu2, hu3⟩
    · refine ⟨[], ?_, by rw [if_neg htlt]; rfl, by intro p hp; simp at hp⟩
      simpa using yields_stop S E q t b htlt

/-- The WGS84 latitude scaling coefficient `ky` is positive at every
latitude. -/
theorem WGS84_ky_pos (lat : ℝ) : 0 < (Ruler.WGS84.coefs lat).2 := by
  have hpi := Real.pi_pos
  simp only [Ruler.coefs, Ruler.WGS84, toRadians]
  have hc2 : Real.cos (lat * (Real.pi / 180)) * Real.cos (lat * (Real.pi / 180)) ≤ 1 := by
    nlinarith [Real.neg_one_le_cos (lat * (Real.pi / 180)),
      Real.cos_le_one (lat * (Real.pi / 180))]
  have hwden : (0 : ℝ) < 1 - 669437999 / 100000000000 *
      (1 - Real.cos (lat * (Real.pi / 180)) * Real.cos (lat * (Real.pi / 180))) := by
    nlinarith
  have hw : (0 : ℝ) < 1 / (1 - 669437999 / 100000000000 *
      (1 - Real.cos (lat * (Real.pi / 180)) * Real.cos (lat * (Real.pi / 180)))) :=
    div_pos one_pos hwden
  have hs := Real.sqrt_pos.mpr hw
  have hk : 0 < Real.sqrt (1 / (1 - 669437999 / 100000000000 *
      (1 - Real.cos (lat * (Real.pi / 180)) * Real.cos (lat * (Real.pi / 180))))) *
      (6378137 * (Real.pi / 180)) := mul_pos hs (by positivity)
  exact mul_pos (mul_pos hk hw) (by norm_num)

/-- The WGS84 distance between the equator origin and the point one degree
of latitude north of it is positive. -/
theorem WGS84_dist_meridian_pos : 0 < Ruler.WGS84.distance ⟨0, 0⟩ ⟨0, 1⟩ := by
  have hky := WGS84_ky_pos ((0 + 1) / (1 + 1))
  simp only [Ruler.distance, Ruler.coefs_avg]
  apply Real.sqrt_pos.mpr
  ring_nf
  ring_nf at hky
  nlinarith [mul_pos hky hky, sq_nonneg (Ruler.WGS84.coefs ((0 + 1) / (1 + 1))).1]

/-- A positive scalar distance forces the two points to differ in at least
one coordinate. -/
theorem dist_pos_ne (r : Ruler) (s e : Pt) (hd : 0 < r.distance s e) :
    s.x ≠ e.x ∨ s.y ≠ e.y := by
  by_contra h
  push_neg at h
  obtain ⟨hx, hy⟩ := h
  obtain ⟨sx, sy⟩ := s
  obtain ⟨ex, ey⟩ := e
  simp only at hx hy
  subst hx
  subst hy
  rw [Ruler.dist_self] at hd
  exact lt_irrefl 0 hd

/-- An interpolated point at a nonzero ratio differs from the exact start
whenever the segment is nondegenerate. -/
theorem parb_ne_start (s e : Pt) (u : ℝ) (hu : u ≠ 0)
    (hne : s.x ≠ e.x ∨ s.y ≠ e.y) :
    point_at_ratio_between s.toEP e.toEP (EF.fin u) ≠ s.toEP := by
  intro h
  rcases hne with hx | hy
  · have hcx := congrArg (fun p => EPoint.x p) h
    simp only [point_at_ratio_between, Pt.toEP, EF.sub_fin_fin, EF.mul_fin_fin,
      EF.add_fin_fin, EF.fin.injEq] at hcx
    have h2 : (e.x + -s.x) * u = 0 := by linarith
    rcases mul_eq_zero.mp h2 with h3 | h3
    · exact hx (by linarith)
    · exact hu h3
  · have hcy := congrArg (fun p => EPoint.y p) h
    simp only [point_at_ratio_between, Pt.toEP, EF.sub_fin_fin, EF.mul_fin_fin,
      EF.add_fin_fin, EF.fin.injEq] at hcy
    have h2 : (e.y + -s.y) * u = 0 := by linarith
    rcases mul_eq_zero.mp h2 with h3 | h3
    · exact hy (by linarith)
    · exact hu h3

/-- An interpolated point at a ratio other than `1` differs from the exact
end whenever the segment is nondegenerate. -/
theorem parb_ne_end (s e : Pt) (u : ℝ) (hu : u ≠ 1)
    (hne : s.x ≠ e.x ∨ s.y ≠ e.y) :
    point_at_ratio_between s.toEP e.toEP (EF.fin u) ≠ e.toEP := by
  intro h
  rcases hne with hx | hy
  · have hcx := congrArg (fun p => EPoint.x p) h
    simp only [point_at_ratio_between, Pt.toEP, EF.sub_fin_fin, EF.mul_fin_fin,
      EF.add_fin_fin, EF.fin.injEq] at hcx
    have h2 : (e.x + -s.x) * (u - 1) = 0 := by
      have hexp : (e.x + -s.x) * (u - 1) = (e.x + -s.x) * u - (e.x + -s.x) := by ring
      rw [hexp]
      linarith
    rcases mul_eq_zero.mp h2 with h3 | h3
    · exact hx (by linarith)
    · exact hu (by linarith)
  · have hcy := congrArg (fun p => EPoint.y p) h
    simp only [point_at_ratio_between, Pt.toEP, EF.sub_fin_fin, EF.mul_fin_fin,
      EF.add_fin_fin, EF.fin.injEq] at hcy
    have h2 : (e.y + -s.y) * (u - 1) = 0 := by
      have hexp : (e.y + -s.y) * (u - 1) = (e.y + -s.y) * u - (e.y + -s.y) := by ring
      rw [hexp]
      linarith
    rcases mul_eq_zero.mp h2 with h3 | h3
    · exact hy (by linarith)
    · exact hu (by linarith)

/-- C5 counterexample: with `max_distance = 0` (not excluded by the claim)
and `include_ends = false`, the step is `0 / distance = 0`, the initial
offset is `0 < 1`, and the very first yielded point is exactly `start` —
contradicting the claim that neither exact endpoint appears in the
output. -/
theorem points_along_line_zero_maxdist_cex :
    0 < Ruler.WGS84.distance ⟨0, 0⟩ ⟨0, 1⟩ ∧
    LinePointInterpolator.firstPoint
      (Ruler.WGS84.points_along_line ⟨0, 0⟩ ⟨0, 1⟩ 0 false) = some ((Pt.mk 0 0).toEP) := by
  refine ⟨WGS84_dist_meridian_pos, ?_⟩
  have hne : Ruler.WGS84.distance ⟨0, 0⟩ ⟨0, 1⟩ ≠ 0 := ne_of_gt WGS84_dist_meridian_pos
  unfold Ruler.points_along_line LinePointInterpolator.firstPoint
  rw [EF.div_fin_of_ne hne, zero_div]
  simp [LinePointInterpolator.next, parb_zero]

/-- C5 amended: for `0 < distance` and `0 < max_distance` (the positivity
of `max_distance` is the restriction the counterexample forces), the
iterator terminates and: with `include_ends = true` the first element is
exactly `start` (ratio `0`), the last element is exactly `end`, and `end`
occurs only as that final element; with `include_ends = false` the first
element (when `step < 1` produces one) is the point at ratio
`step = max_distance / distance`, and neither exact `start` nor exact
`end` occurs in the output. -/
theorem points_along_line_endpoints_amended (r : Ruler) (s e : Pt) (maxd : ℝ)
    (hd : 0 < r.distance s e) (hm : 0 < maxd) :
    (∃ l : List (EPoint ℝ),
      Yields (r.points_along_line s e maxd true) l ∧
      l.head? = some s.toEP ∧ l.getLast? = some e.toEP ∧
      ∃ mids, l = mids ++ [e.toEP] ∧ e.toEP ∉ mids) ∧
    (∃ l : List (EPoint ℝ),
      Yields (r.points_along_line s e maxd false) l ∧
      (maxd / r.distance s e < 1 →
        l.head? = some (point_at_ratio_between s.toEP e.toEP
          (EF.fin (maxd / r.distance s e)))) ∧
      s.toEP ∉ l ∧ e.toEP ∉ l) := by
  have hdne : r.distance s e ≠ 0 := ne_of_gt hd
  have hq : 0 < maxd / r.distance s e := div_pos hm hd
  have hne := dist_pos_ne r s e hd
  constructor
  · obtain ⟨N, hN⟩ := exists_nat_ge ((1 - 0) / (maxd / r.distance s e))
    obtain ⟨mids, hy, hhead, hmem⟩ :=
      yields_fin_run s.toEP e.toEP (maxd / r.distance s e) hq true N 0 hN
    rw [if_pos (by norm_num : (0 : ℝ) < 1), parb_zero] at hhead
    refine ⟨mids ++ [e.toEP], ?_, ?_, by simp, mids, rfl, ?_⟩
    · unfold Ruler.points_along_line
      rw [EF.div_fin_of_ne hdne]
      simpa using hy
    · cases mids with
      | nil => simp at hhead
      | cons p rest =>
        simp only [List.head?_cons, Option.some.injEq] at hhead
        subst hhead
        rfl
    · intro hmem'
      obtain ⟨u, hu1, hu2, hu3⟩ := hmem _ hmem'
      exact parb_ne_end s e u (ne_of_lt hu2) hne hu3.symm
  · obtain ⟨N, hN⟩ :=
      exists_nat_ge ((1 - maxd / r.distance s e) / (maxd / r.distance s e))
    obtain ⟨mids, hy, hhead, hmem⟩ :=
      yields_fin_run s.toEP e.toEP (maxd / r.distance s e) hq false N
        (maxd / r.distance s e) hN
    refine ⟨mids, ?_, ?_, ?_, ?_⟩
    · unfold Ruler.points_along_line
      rw [EF.div_fin_of_ne hdne]
      simpa using hy
    · intro hlt
      rw [if_pos hlt] at hhead
      exact hhead
    · intro hmem'
      obtain ⟨u, hu1, hu2, hu3⟩ := hmem _ hmem'
      exact parb_ne_start s e u (lt_of_lt_of_le hq hu1).ne' hne hu3.symm
    · intro hmem'
      obtain ⟨u, hu1, hu2, hu3⟩ := hmem _ hmem'
      exact parb_ne_end s e u (ne_of_lt hu2) hne hu3.symm

/-- C5 witness: the amended theorem at WGS84, `start = (0,0)`,
`end = (0,1)` (one degree of latitude apart), `max_distance = 1`. -/
theorem points_along_line_endpoints_amended_witness :
    0 < Ruler.WGS84.distance ⟨0, 0⟩ ⟨0, 1⟩ ∧ ((0 : ℝ) < 1) ∧
    ((∃ l : List (EPoint ℝ),
      Yields (Ruler.WGS84.points_along_line ⟨0, 0⟩ ⟨0, 1⟩ 1 true) l ∧
      l.head? = some (Pt.mk 0 0).toEP ∧ l.getLast? = some (Pt.mk 0 1).toEP ∧
      ∃ mids, l = mids ++ [(Pt.mk 0 1).toEP] ∧ (Pt.mk 0 1).toEP ∉ mids) ∧
    (∃ l : List (EPoint ℝ),
      Yields (Ruler.WGS84.points_along_line ⟨0, 0⟩ ⟨0, 1⟩ 1 false) l ∧
      (1 / Ruler.WGS84.distance ⟨0, 0⟩ ⟨0, 1⟩ < 1 →
        l.head? = some (point_at_ratio_between (Pt.mk 0 0).toEP (Pt.mk 0 1).toEP
          (EF.fin (1 / Ruler.WGS84.distance ⟨0, 0⟩ ⟨0, 1⟩)))) ∧
      (Pt.mk 0 0).toEP ∉ l ∧ (Pt.mk 0 1).toEP ∉ l)) :=
  ⟨WGS84_dist_meridian_pos, one_pos,
    points_along_line_endpoints_amended Ruler.WGS84 ⟨0, 0⟩ ⟨0, 1⟩ 1
      WGS84_dist_meridian_pos one_pos⟩
